import Mathlib

/-!
# Verification of the daily-game puzzle engine

Shallow embedding of `frontend/src/engine.ts`: the seeded deterministic
board generator, the attack / line-of-sight model, the pairwise conflict
evaluator, the backtracking solver and the solvable-board search loop.

Conventions of the embedding:
* JavaScript 32-bit integer operations are modelled on `Nat`, reduced
  `% 2^32` exactly where the source's `Math.imul`, shifts and xors wrap.
  Only bit patterns matter in the source (no signed comparison or signed
  division occurs), so the unsigned residue is a faithful model.
* The RNG closure `mulberry32` is modelled as an explicit state-passing
  step function `mulberry32 : Nat -> Nat × Nat` (new state, 32-bit output).
  The float it returns is `out / 2^32`, an exact dyadic rational; every
  consumer compares or scales it, which we reproduce exactly on `Nat`:
  - `rng() < 0.28`: the IEEE double literal `0.28` is exactly
    `1261007895663739 / 2^52`, and `u / 2^32 < 0.28` iff
    `u * 2^20 < 1261007895663739`.
  - `Math.floor(rng() * k) = (k * u) / 2^32` for `k ∈ {2,3}` (both exact
    in double precision since `3 * u < 2^34 < 2^53`).
  - `Math.ceil(total * 0.45)`: `0.45` is exactly `8106479329266893 / 2^54`;
    the double product rounds the exact value `M * total / 2^54` to 53
    significant bits (round half to even), which `rnd53` reproduces.
* Strings (seeds) are modelled as their lists of UTF-16 code units
  (`List Nat`), matching `charCodeAt`.
* The JS `Set` of `"row,col"` strings is modelled as a `Finset (Int × Int)`;
  the encoding of an integer pair into that string form is injective, so
  the two sets are in exact bijection.
-/

/-- 2^32, the wrap-around modulus of JavaScript 32-bit integer operations. -/
def u32 : Nat := 4294967296

/-- `Math.imul`: 32-bit product (bit pattern of the signed product). -/
def imul (a b : Nat) : Nat := (a * b) % u32

/-- `hashSeed`: fold each UTF-16 code unit into a 32-bit accumulator
(multiplicative mixing, 13-bit rotation, final xor-shift avalanche).
The seed string is given as its list of code units. -/
def hashSeed (seed : List Nat) : Nat :=
  let h0 := Nat.xor 1779033703 (seed.length % u32)
  let h := seed.foldl
    (fun h c =>
      let h1 := imul (Nat.xor h c) 3432918353
      (((h1 * 8192) % u32) ||| (h1 / 524288)))
    h0
  Nat.xor h (h / 65536)

/-- One step of the `mulberry32` RNG: from the 32-bit state, produce the
new state and the 32-bit output word (the JS float output is `out / 2^32`). -/
def mulberry32 (a : Nat) : Nat × Nat :=
  let a2 := (a + 1831565813) % u32
  let t0 := a2
  let t1 := imul (Nat.xor t0 (t0 / 32768)) (t0 ||| 1)
  let t2 := (t1 + imul (Nat.xor t1 (t1 / 128)) (t1 ||| 61)) % u32
  let t3 := Nat.xor t1 t2
  (a2, Nat.xor t3 (t3 / 16384))

/-- Number of halvings needed to bring `x` strictly below `2^53`
(fuel-based so that the kernel can evaluate it). -/
def sh53Aux : Nat → Nat → Nat
  | 0, _ => 0
  | f + 1, x => if x < 9007199254740992 then 0 else sh53Aux f (x / 2) + 1

/-- The shift normalizing `x` to 53 significant bits. -/
def sh53 (x : Nat) : Nat := sh53Aux x x

/-- Round a natural number to 53 significant binary digits, round half to
even: the significand rounding performed when an exact real value with
integer numerator `x` is rounded to an IEEE double. -/
def rnd53 (x : Nat) : Nat :=
  if x < 9007199254740992 then x
  else
    let sh := sh53 x
    let q := x / 2 ^ sh
    let r := x % 2 ^ sh
    if 2 ^ (sh - 1) < r ∨ (r = 2 ^ (sh - 1) ∧ q % 2 = 1) then (q + 1) * 2 ^ sh
    else q * 2 ^ sh

/-- `Math.ceil(total * 0.45)` computed in IEEE double arithmetic:
`0.45` is exactly `8106479329266893 / 2^54`, the product rounds the exact
numerator to 53 significant bits, and the ceiling divides by `2^54`. -/
def minValidFor (total : Nat) : Nat :=
  (rnd53 (8106479329266893 * total) + (18014398509481984 - 1)) / 18014398509481984

/-- Cell state of a board square. -/
inductive CellState where
  | valid : CellState
  | blocked : CellState
deriving DecidableEq, Repr

/-- The generated board: a row-major grid of cells plus its dimensions and
the seed (as UTF-16 code units) that produced it. -/
structure Board where
  width : Nat
  height : Nat
  cells : List (List CellState)
  seed : List Nat
deriving DecidableEq, Repr

/-- One RNG draw turned into a cell: `rng() < 0.28 ? 'blocked' : 'valid'`,
with the exact integer form of the double comparison. -/
def drawCell (u : Nat) : CellState :=
  if u * 1048576 < 1261007895663739 then CellState.blocked else CellState.valid

/-- Generate one row of `size` cells, threading the RNG state. -/
def genRow (state : Nat) : Nat → List CellState × Nat
  | 0 => ([], state)
  | n + 1 =>
    let r := mulberry32 state
    let rest := genRow r.1 n
    (drawCell r.2 :: rest.1, rest.2)

/-- Generate `rows` rows of `size` cells each, threading the RNG state. -/
def genCells (state : Nat) (size : Nat) : Nat → List (List CellState) × Nat
  | 0 => ([], state)
  | n + 1 =>
    let row := genRow state size
    let rest := genCells row.2 size n
    (row.1 :: rest.1, rest.2)

/-- Number of `valid` cells in a row. -/
def countValidRow (row : List CellState) : Nat :=
  row.countP (fun c => c = CellState.valid)

/-- Number of `valid` cells in a grid. -/
def countValid (cells : List (List CellState)) : Nat :=
  (cells.map countValidRow).sum

/-- Number of `blocked` cells in a row. -/
def countBlockedRow (row : List CellState) : Nat :=
  row.countP (fun c => c = CellState.blocked)

/-- Number of `blocked` cells in a grid. -/
def countBlocked (cells : List (List CellState)) : Nat :=
  (cells.map countBlockedRow).sum

/-- Flip the earliest `blocked` cells of a row to `valid`, at most `need`
of them; returns the number of flips still needed and the new row. -/
def flipRow : Nat → List CellState → Nat × List CellState
  | 0, row => (0, row)
  | need + 1, [] => (need + 1, [])
  | need + 1, CellState.blocked :: rest =>
    let r := flipRow need rest
    (r.1, CellState.valid :: r.2)
  | need + 1, CellState.valid :: rest =>
    let r := flipRow (need + 1) rest
    (r.1, CellState.valid :: r.2)

/-- The deterministic repair pass: flip the row-major-earliest `blocked`
cells to `valid`, at most `need` of them. -/
def flipCells : Nat → List (List CellState) → List (List CellState)
  | _, [] => []
  | need, row :: rest =>
    let r := flipRow need row
    r.2 :: flipCells r.1 rest

/-- `generateBoard(seed, size)`: seed the RNG from the hashed seed, draw one
float per cell in row-major order marking cells blocked below ratio `0.28`,
then, if the count of valid cells is below `ceil(size*size*0.45)` (computed
in double arithmetic), flip the earliest blocked cells to valid. -/
def generateBoard (seed : List Nat) (size : Nat) : Board :=
  let cells := (genCells (hashSeed seed) size size).1
  let validCount := countValid cells
  let minValid := minValidFor (size * size)
  let cells2 := if validCount < minValid then flipCells (minValid - validCount) cells else cells
  { width := size, height := size, cells := cells2, seed := seed }

/-- The six piece archetypes. -/
inductive PieceType where
  | queen : PieceType
  | rook : PieceType
  | bishop : PieceType
  | knight : PieceType
  | pawn : PieceType
  | king : PieceType
deriving DecidableEq, Repr

/-- A piece occupying one square. Row and column are JS numbers; the engine
never restricts them, so they are modelled as integers. -/
structure PiecePlacement where
  row : Int
  col : Int
  type : PieceType
deriving DecidableEq, Repr

/-- A piece inventory: a per-type count (a missing key in the JS partial
record reads as `?? 0`, i.e. a zero field). -/
structure Inventory where
  queen : Nat
  rook : Nat
  bishop : Nat
  knight : Nat
  pawn : Nat
  king : Nat
deriving DecidableEq, Repr

/-- `inv[type] ?? 0`. -/
def Inventory.get (inv : Inventory) : PieceType → Nat
  | PieceType.queen => inv.queen
  | PieceType.rook => inv.rook
  | PieceType.bishop => inv.bishop
  | PieceType.knight => inv.knight
  | PieceType.pawn => inv.pawn
  | PieceType.king => inv.king

/-- The all-zero usage-count record the solver starts from. -/
def Inventory.zero : Inventory := ⟨0, 0, 0, 0, 0, 0⟩

/-- `usedCounts[p.type] += 1`. -/
def Inventory.bump (inv : Inventory) : PieceType → Inventory
  | PieceType.queen => { inv with queen := inv.queen + 1 }
  | PieceType.rook => { inv with rook := inv.rook + 1 }
  | PieceType.bishop => { inv with bishop := inv.bishop + 1 }
  | PieceType.knight => { inv with knight := inv.knight + 1 }
  | PieceType.pawn => { inv with pawn := inv.pawn + 1 }
  | PieceType.king => { inv with king := inv.king + 1 }

/-- Read the cell at integer coordinates. In the source this is
`board.cells[r][c]`; an in-range-row, out-of-range-column access yields
`undefined`, which the `=== 'blocked'` tests treat as not blocked, so out
of range reads are modelled as `valid` (only the `blocked` comparison is
ever made on them in the verified claims, all of which stay in bounds). -/
def cellAt (b : Board) (r c : Int) : CellState :=
  if 0 ≤ r ∧ 0 ≤ c then ((b.cells.getD r.toNat []).getD c.toNat CellState.valid)
  else CellState.valid

/-- `isValidSquare`: in bounds and a `valid` cell. -/
def isValidSquare (b : Board) (row col : Int) : Bool :=
  0 ≤ row ∧ 0 ≤ col ∧ row < (b.height : Int) ∧ col < (b.width : Int) ∧
    cellAt b row col = CellState.valid

/-- The walk of `pathClear`: check `fuel` consecutive cells starting at
`(r, c)`, stepping by `(dr, dc)`; fail on a blocked board cell or an
occupied square. -/
def pathClearAux (b : Board) (occ : Finset (Int × Int)) (dr dc : Int) :
    Nat → Int → Int → Bool
  | 0, _, _ => true
  | fuel + 1, r, c =>
    if cellAt b r c = CellState.blocked then false
    else if (r, c) ∈ occ then false
    else pathClearAux b occ dr dc fuel (r + dr) (c + dc)

/-- Chebyshev distance between the two squares: the number of unit steps of
the `pathClear` walk from `a` to `bb` (along a shared row, column or
diagonal the walk visits exactly `cheb - 1` intermediate cells). -/
def cheb (a bb : PiecePlacement) : Nat :=
  max (bb.row - a.row).natAbs (bb.col - a.col).natAbs

/-- `pathClear`: walk unit steps from just after `a` toward `bb`, failing on
blocked cells and occupied squares strictly between the two. -/
def pathClear (b : Board) (a bb : PiecePlacement) (occ : Finset (Int × Int)) : Bool :=
  let dr := (bb.row - a.row).sign
  let dc := (bb.col - a.col).sign
  pathClearAux b occ dr dc (cheb a bb - 1) (a.row + dr) (a.col + dc)

/-- `piecesAttack`: does piece `a` attack square/piece `bb`, with `occ` the
set of occupied squares acting as sight blockers for the sliders? -/
def piecesAttack (b : Board) (a bb : PiecePlacement) (occ : Finset (Int × Int)) : Bool :=
  let dr := bb.row - a.row
  let dc := bb.col - a.col
  let adr := dr.natAbs
  let adc := dc.natAbs
  match a.type with
  | PieceType.rook => if dr = 0 ∨ dc = 0 then pathClear b a bb occ else false
  | PieceType.bishop => if adr = adc then pathClear b a bb occ else false
  | PieceType.queen =>
    if dr = 0 ∨ dc = 0 ∨ adr = adc then pathClear b a bb occ else false
  | PieceType.knight => decide ((adr = 2 ∧ adc = 1) ∨ (adr = 1 ∧ adc = 2))
  | PieceType.king => decide (adr ≤ 1 ∧ adc ≤ 1 ∧ 0 < adr + adc)
  | PieceType.pawn => decide (dr = -1 ∧ (dc = -1 ∨ dc = 1))

/-- The occupied-square set of a placement list (the JS `Set` of
`"row,col"` keys, in bijection with the set of coordinate pairs). -/
def keysOf (l : List PiecePlacement) : Finset (Int × Int) :=
  (l.map fun p => (p.row, p.col)).toFinset

/-- The undirected conflict test applied to each pair: either direction of
`piecesAttack` succeeds. -/
def conflictB (b : Board) (occ : Finset (Int × Int)) (p q : PiecePlacement) : Bool :=
  piecesAttack b p q occ || piecesAttack b q p occ

/-- The result of `evaluateConflicts`: the set of `(row,col)` keys involved
in at least one conflicting pair, and the number of conflicting pairs. -/
structure ConflictResult where
  positions : Finset (Int × Int)
  pairCount : Nat
deriving DecidableEq

/-- Keys inserted for the conflicts of `p` against each member of `hits`. -/
def pairPos (p : PiecePlacement) (hits : List PiecePlacement) : Finset (Int × Int) :=
  hits.foldr (fun q s => insert (p.row, p.col) (insert (q.row, q.col) s)) ∅

/-- The double loop of `evaluateConflicts`: for each `i < j` test the pair
in both directions, collecting offending keys and counting pairs. -/
def pairsAux (b : Board) (occ : Finset (Int × Int)) :
    List PiecePlacement → Finset (Int × Int) × Nat
  | [] => (∅, 0)
  | p :: rest =>
    let hits := rest.filter (fun q => conflictB b occ p q)
    let (pos, cnt) := pairsAux b occ rest
    (pairPos p hits ∪ pos, hits.length + cnt)

/-- `evaluateConflicts`: occupied squares are all placement squares; every
unordered pair is tested in both directions. -/
def evaluateConflicts (b : Board) (placements : List PiecePlacement) : ConflictResult :=
  let occ := keysOf placements
  let (pos, cnt) := pairsAux b occ placements
  { positions := pos, pairCount := cnt }

/-- `isLegalPlacement`: the conflict evaluator reports no offending square. -/
def isLegalPlacement (b : Board) (placements : List PiecePlacement) : Bool :=
  (evaluateConflicts b placements).positions.card = 0

/-- The fixed key order of the piece-type record literal built by
`inventoryForSeed` (object-literal insertion order, which `Object.keys`
reproduces in `buildInventoryArray`). -/
def pieceOrder : List PieceType :=
  [PieceType.queen, PieceType.rook, PieceType.bishop, PieceType.knight,
   PieceType.pawn, PieceType.king]

/-- `buildInventoryArray`: one entry per piece of the inventory, grouped by
type in key order. -/
def buildInventoryArray (inv : Inventory) : List PieceType :=
  (pieceOrder.map (fun t => List.replicate (inv.get t) t)).flatten

/-- The solver's fixed search priority: queen, rook, bishop, knight, pawn,
king. -/
def priorityOf : PieceType → Nat
  | PieceType.queen => 0
  | PieceType.rook => 1
  | PieceType.bishop => 2
  | PieceType.knight => 3
  | PieceType.pawn => 4
  | PieceType.king => 5

/-- `remainingPieces.sort((a, b) => priority[a] - priority[b])`: a stable
sort by ascending priority. Elements of equal priority are equal (priority
is injective on `PieceType`), so every sorting algorithm driven by this
comparator returns the same list; an insertion sort is used because the
kernel can evaluate it. -/
def sortByPriority (l : List PieceType) : List PieceType :=
  l.insertionSort (fun a bb => priorityOf a ≤ priorityOf bb)

/-- The candidate squares: all valid cells in row-major order. -/
def validCells (b : Board) : List (Int × Int) :=
  ((List.range b.height).map (fun r =>
    (List.range b.width).filterMap (fun c =>
      if cellAt b (r : Int) (c : Int) = CellState.valid
      then some ((r : Int), (c : Int)) else none))).flatten

/-- The preplaced-validation loop: each preplaced piece must sit on a valid
square and must not push its type's usage count past the inventory;
the final usage counts are returned. -/
def loadPre (b : Board) (inv : Inventory) :
    List PiecePlacement → Inventory → Option Inventory
  | [], used => some used
  | p :: rest, used =>
    if isValidSquare b p.row p.col then
      let used2 := used.bump p.type
      if inv.get p.type < used2.get p.type then none
      else loadPre b inv rest used2
    else none

/-- The depth-first search of `solveWithInventory`: place the remaining
pieces in order, trying every candidate cell; skip occupied cells and
cells where the candidate conflicts (in either direction) with any piece
already placed; backtrack on exhaustion. -/
def backtrack (b : Board) (cells : List (Int × Int)) :
    List PieceType → List PiecePlacement → Finset (Int × Int) →
      Option (List PiecePlacement)
  | [], placed, _ => some placed
  | t :: rest, placed, occ =>
    cells.findSome? fun cell =>
      if cell ∈ occ then none
      else
        let cand : PiecePlacement := ⟨cell.1, cell.2, t⟩
        if placed.any (fun p => piecesAttack b cand p occ || piecesAttack b p cand occ)
        then none
        else backtrack b cells rest (placed ++ [cand]) (insert cell occ)

/-- `solveWithInventory(board, inventory, preplaced)`: validate the
preplaced pieces and their counts, reject a conflicted preplaced set, build
and sort the remaining-piece list, then run the backtracking search over
the valid cells. -/
def solveWithInventory (b : Board) (inv : Inventory)
    (preplaced : List PiecePlacement) : Option (List PiecePlacement) :=
  match loadPre b inv preplaced Inventory.zero with
  | none => none
  | some used =>
    if isLegalPlacement b preplaced then
      let remainingPieces :=
        (buildInventoryArray inv).filter (fun t => used.get t < inv.get t)
      let sorted := sortByPriority remainingPieces
      backtrack b (validCells b) sorted preplaced (keysOf preplaced)
    else none

/-- Decimal digits of `attempt` as UTF-16 code units (the template literal
appends the decimal rendering of the attempt number). -/
def decimalCodes (n : Nat) : List Nat :=
  (Nat.toDigits 10 n).map Char.toNat

/-- The seed of attempt `k`: the base seed itself for `k = 0`, otherwise
`baseSeed-k` (hyphen is code unit 45). -/
def attemptSeed (base : List Nat) (k : Nat) : List Nat :=
  if k = 0 then base else base ++ 45 :: decimalCodes k

/-- The retry loop of `findSolvableBoard`, with `fuel` the number of
attempts left; on exhaustion, regenerate the base-seed board and pair it
with `null`. -/
def findAux (base : List Nat) (inv : Inventory) :
    Nat → Nat → Board × Option (List PiecePlacement)
  | _, 0 => (generateBoard base 8, none)
  | attempt, fuel + 1 =>
    let b := generateBoard (attemptSeed base attempt) 8
    match solveWithInventory b inv [] with
    | some sol => (b, some sol)
    | none => findAux base inv (attempt + 1) fuel

/-- `findSolvableBoard(baseSeed, inventory, maxAttempts)`. -/
def findSolvableBoard (base : List Nat) (inv : Inventory) (maxAttempts : Nat) :
    Board × Option (List PiecePlacement) :=
  findAux base inv 0 maxAttempts

/-- `Math.floor(rng() * (max - min + 1)) + min`, exact for the spans used
(2 and 3): the double product of `u / 2^32` with the span is exact. -/
def roll (u : Nat) (lo hi : Nat) : Nat :=
  (u * (hi - lo + 1)) / u32 + lo

/-- `inventoryForSeed`: a fresh RNG from the same hashed seed; one bounded
draw per type in literal order (queen, rook, bishop, knight, pawn), king
fixed at 1. -/
def inventoryForSeed (seed : List Nat) : Inventory :=
  let r1 := mulberry32 (hashSeed seed)
  let r2 := mulberry32 r1.1
  let r3 := mulberry32 r2.1
  let r4 := mulberry32 r3.1
  let r5 := mulberry32 r4.1
  { queen := roll r1.2 1 2
    rook := roll r2.2 3 4
    bishop := roll r3.2 2 3
    knight := roll r4.2 2 3
    pawn := roll r5.2 4 6
    king := 1 }

/-- The sliding piece types, whose attack test calls `pathClear`. -/
def isSlider : PieceType → Bool
  | PieceType.queen => true
  | PieceType.rook => true
  | PieceType.bishop => true
  | _ => false

/-- A placement lies within the board's bounds. -/
def inBounds (b : Board) (p : PiecePlacement) : Prop :=
  0 ≤ p.row ∧ p.row < (b.height : Int) ∧ 0 ≤ p.col ∧ p.col < (b.width : Int)

instance (b : Board) (p : PiecePlacement) : Decidable (inBounds b p) := by
  unfold inBounds; infer_instance

/-- The two squares share a row, a column, or a diagonal: exactly the
guards under which `piecesAttack` (rook, bishop, queen) enters `pathClear`. -/
def onLine (p q : PiecePlacement) : Prop :=
  q.row - p.row = 0 ∨ q.col - p.col = 0 ∨
    (q.row - p.row).natAbs = (q.col - p.col).natAbs

instance (p q : PiecePlacement) : Decidable (onLine p q) := by
  unfold onLine; infer_instance

/-- The cells visited by the `pathClear` walk: `fuel` cells starting at
`(r, c)` and stepping by `(dr, dc)`. -/
def pathCellsAux (dr dc : Int) : Nat → Int → Int → List (Int × Int)
  | 0, _, _ => []
  | fuel + 1, r, c => (r, c) :: pathCellsAux dr dc fuel (r + dr) (c + dc)

/-- The intermediate cells visited by `pathClear` between `a` and `bb`. -/
def pathCells (a bb : PiecePlacement) : List (Int × Int) :=
  pathCellsAux (bb.row - a.row).sign (bb.col - a.col).sign (cheb a bb - 1)
    (a.row + (bb.row - a.row).sign) (a.col + (bb.col - a.col).sign)

/-- A 1×1 all-valid board (fixture for concrete evaluations). -/
def boardOne : Board := ⟨1, 1, [[CellState.valid]], []⟩

/-- A 2×2 all-valid board (fixture for concrete evaluations). -/
def boardTwo : Board :=
  ⟨2, 2, [[CellState.valid, CellState.valid], [CellState.valid, CellState.valid]], []⟩

/-- A 3×3 all-valid board (fixture for concrete evaluations). -/
def boardThree : Board :=
  ⟨3, 3, [[CellState.valid, CellState.valid, CellState.valid],
          [CellState.valid, CellState.valid, CellState.valid],
          [CellState.valid, CellState.valid, CellState.valid]], []⟩

/-- An inventory of exactly two rooks. -/
def invRook2 : Inventory := ⟨0, 2, 0, 0, 0, 0⟩

/-- An inventory of exactly one king. -/
def invKing1 : Inventory := ⟨0, 0, 0, 0, 0, 1⟩

/-- A rook at the origin. -/
def rookA : PiecePlacement := ⟨0, 0, PieceType.rook⟩

/-- A rook at (1,1). -/
def rookB : PiecePlacement := ⟨1, 1, PieceType.rook⟩

/-- A rook at (2,2). -/
def rookC : PiecePlacement := ⟨2, 2, PieceType.rook⟩

lemma u32_eq : u32 = 2 ^ 32 := by norm_num [u32]

lemma mod_u32_lt (x : Nat) : x % u32 < u32 := Nat.mod_lt _ (by norm_num [u32])

lemma xor_lt_u32 {x y : Nat} (hx : x < u32) (hy : y < u32) : Nat.xor x y < u32 := by
  rw [u32_eq] at *
  exact Nat.xor_lt_two_pow hx hy

lemma mulberry32_out_lt (a : Nat) : (mulberry32 a).2 < u32 := by
  simp only [mulberry32, imul]
  refine xor_lt_u32 (xor_lt_u32 (mod_u32_lt _) (mod_u32_lt _)) ?_
  exact lt_of_le_of_lt (Nat.div_le_self _ _) (xor_lt_u32 (mod_u32_lt _) (mod_u32_lt _))

lemma roll_ge (u lo hi : Nat) : lo ≤ roll u lo hi :=
  Nat.le_add_left lo _

lemma roll_le {u : Nat} (lo hi : Nat) (hu : u < u32) (h : lo ≤ hi) : roll u lo hi ≤ hi := by
  unfold roll
  have hk : 0 < hi - lo + 1 := by omega
  have h2 : u * (hi - lo + 1) < (hi - lo + 1) * u32 := by
    calc u * (hi - lo + 1) = (hi - lo + 1) * u := by ring
    _ < (hi - lo + 1) * u32 := by exact (Nat.mul_lt_mul_left hk).mpr hu
  have h3 : u * (hi - lo + 1) / u32 < hi - lo + 1 :=
    (Nat.div_lt_iff_lt_mul (by norm_num [u32])).mpr h2
  omega

/-- C9: for every seed string, every inventory count is inside its
documented inclusive range (queen 1–2, rook 3–4, bishop 2–3, knight 2–3,
pawn 4–6) and the king count is exactly 1. -/
theorem claim_C9 (seed : List Nat) :
    1 ≤ (inventoryForSeed seed).queen ∧ (inventoryForSeed seed).queen ≤ 2 ∧
    3 ≤ (inventoryForSeed seed).rook ∧ (inventoryForSeed seed).rook ≤ 4 ∧
    2 ≤ (inventoryForSeed seed).bishop ∧ (inventoryForSeed seed).bishop ≤ 3 ∧
    2 ≤ (inventoryForSeed seed).knight ∧ (inventoryForSeed seed).knight ≤ 3 ∧
    4 ≤ (inventoryForSeed seed).pawn ∧ (inventoryForSeed seed).pawn ≤ 6 ∧
    (inventoryForSeed seed).king = 1 := by
  simp only [inventoryForSeed]
  refine ⟨roll_ge _ _ _, roll_le _ _ (mulberry32_out_lt _) (by omega),
    roll_ge _ _ _, roll_le _ _ (mulberry32_out_lt _) (by omega),
    roll_ge _ _ _, roll_le _ _ (mulberry32_out_lt _) (by omega),
    roll_ge _ _ _, roll_le _ _ (mulberry32_out_lt _) (by omega),
    roll_ge _ _ _, roll_le _ _ (mulberry32_out_lt _) (by omega), trivial⟩

/-- C8: board generation and inventory derivation are deterministic — two
calls with the same seed (and size) produce identical cell grids and
identical per-type counts. In this pure embedding both are functions of
the seed alone, so the two calls coincide definitionally. -/
theorem claim_C8 (seed : List Nat) (size : Nat) :
    (generateBoard seed size).cells = (generateBoard seed size).cells ∧
    inventoryForSeed seed = inventoryForSeed seed :=
  ⟨rfl, rfl⟩

/-- C1: the claim fails on the code. The preplaced rook at (0,0) on the
all-valid 2×2 board passes the solver's preplaced validation, the two-rook
inventory admits a complete conflict-free assignment extending it (rooks at
(0,0) and (1,1) — indeed the solver itself returns exactly that assignment
when the preplaced list is empty), yet `solveWithInventory` returns `null`:
the remaining-piece list keeps all copies of a partially used type, so the
search looks for three rooks on the 2×2 board, which is impossible. -/
theorem claim_C1 :
    loadPre boardTwo invRook2 [rookA] Inventory.zero = some ⟨0, 1, 0, 0, 0, 0⟩ ∧
    isLegalPlacement boardTwo [rookA] = true ∧
    solveWithInventory boardTwo invRook2 [] = some [rookA, rookB] ∧
    (evaluateConflicts boardTwo [rookA, rookB]).positions = ∅ ∧
    (evaluateConflicts boardTwo [rookA, rookB]).pairCount = 0 ∧
    solveWithInventory boardTwo invRook2 [rookA] = none := by
  refine ⟨by decide, by decide, by decide, by decide, by decide, by decide⟩

/-- C2: the claim fails on the code. With inventory {rook: 2} and one rook
preplaced at (0,0) on the all-valid 3×3 board, the filter
`usedCounts[type] < inventory[type]` keeps every copy of a type while any
copy is unused, so the solver searches for two further rooks and returns a
three-rook placement whose per-type count (3) exceeds the inventory (2). -/
theorem claim_C2 :
    solveWithInventory boardThree invRook2 [rookA] = some [rookA, rookB, rookC] ∧
    ([rookA, rookB, rookC].countP (fun p => p.type = PieceType.rook) = 3) ∧
    invRook2.rook = 2 := by
  refine ⟨by decide, by decide, by decide⟩
lemma pairsAux_cons (b : Board) (occ : Finset (Int × Int)) (p : PiecePlacement)
    (rest : List PiecePlacement) :
    pairsAux b occ (p :: rest) =
      (pairPos p (rest.filter (fun q => conflictB b occ p q)) ∪ (pairsAux b occ rest).1,
       (rest.filter (fun q => conflictB b occ p q)).length + (pairsAux b occ rest).2) := rfl

lemma evaluateConflicts_eq (b : Board) (l : List PiecePlacement) :
    evaluateConflicts b l =
      ⟨(pairsAux b (keysOf l) l).1, (pairsAux b (keysOf l) l).2⟩ := rfl

lemma evaluateConflicts_pair_count (b : Board) (p q : PiecePlacement) :
    (evaluateConflicts b [p, q]).pairCount =
      if conflictB b (keysOf [p, q]) p q then 1 else 0 := by
  rw [evaluateConflicts_eq]
  cases h : conflictB b (keysOf [p, q]) p q <;>
    simp [pairsAux_cons, pairsAux, List.filter, h]

lemma piecesAttack_self (b : Board) (p q : PiecePlacement) (occ : Finset (Int × Int))
    (hr : q.row = p.row) (hc : q.col = p.col) :
    piecesAttack b p q occ = isSlider p.type := by
  have h1 : q.row - p.row = 0 := by omega
  have h2 : q.col - p.col = 0 := by omega
  cases hp : p.type <;>
    simp [piecesAttack, h1, h2, pathClear, cheb, pathClearAux, isSlider, hp]

/-- C4 (amended): for two distinct list entries occupying the same square,
`evaluateConflicts` reports the pair as non-attacking precisely when
neither piece is a slider (knight, pawn, king); when either piece is a
queen, rook or bishop, the zero-length `pathClear` walk succeeds trivially
and the coincident pair is reported as a conflict. -/
theorem claim_C4 (b : Board) (p q : PiecePlacement)
    (hr : q.row = p.row) (hc : q.col = p.col) :
    (evaluateConflicts b [p, q]).pairCount = 0 ↔
      (isSlider p.type = false ∧ isSlider q.type = false) := by
  have h1 : piecesAttack b p q (keysOf [p, q]) = isSlider p.type :=
    piecesAttack_self b p q _ hr hc
  have h2 : piecesAttack b q p (keysOf [p, q]) = isSlider q.type :=
    piecesAttack_self b q p _ hr.symm hc.symm
  rw [evaluateConflicts_pair_count]
  unfold conflictB
  rw [h1, h2]
  cases hs : isSlider p.type <;> cases ht : isSlider q.type <;> simp

/-- C4 witness: the amended claim evaluated at two coincident rooks on the
1×1 board. -/
theorem claim_C4_witness :
    (rookA.row = rookA.row ∧ rookA.col = rookA.col) ∧
    ((evaluateConflicts boardOne [rookA, rookA]).pairCount = 0 ↔
      (isSlider rookA.type = false ∧ isSlider rookA.type = false)) :=
  ⟨⟨rfl, rfl⟩, claim_C4 boardOne rookA rookA rfl rfl⟩

/-- C4 counterexample to the claim as stated: two distinct list entries,
both rooks, on the same square (0,0) of the 1×1 board are reported as a
conflicting pair (pair count 1, both keys offending), not as non-attacking. -/
theorem claim_C4_counterexample :
    (evaluateConflicts boardOne [rookA, rookA]).pairCount = 1 ∧
    (evaluateConflicts boardOne [rookA, rookA]).positions = {((0 : Int), (0 : Int))} := by
  refine ⟨by decide, by decide⟩
lemma pathClearAux_mono (b : Board) (occ occ2 : Finset (Int × Int)) (dr dc : Int)
    (hsub : occ ⊆ occ2) :
    ∀ (fuel : Nat) (r c : Int), pathClearAux b occ2 dr dc fuel r c = true →
      pathClearAux b occ dr dc fuel r c = true := by
  intro fuel
  induction fuel with
  | zero => intro r c _; rfl
  | succ n ih =>
    intro r c h
    unfold pathClearAux at h ⊢
    by_cases hb : cellAt b r c = CellState.blocked
    · simp [hb] at h
    · by_cases h2 : (r, c) ∈ occ2
      · simp [hb, h2] at h
      · have h3 : (r, c) ∉ occ := fun hx => h2 (hsub hx)
        simp only [hb, if_false, h2, h3, if_neg, ite_false] at h ⊢
        exact ih _ _ h

lemma pathClear_mono (b : Board) (a c : PiecePlacement) (occ occ2 : Finset (Int × Int))
    (hsub : occ ⊆ occ2) (h : pathClear b a c occ2 = true) : pathClear b a c occ = true := by
  unfold pathClear at h ⊢
  exact pathClearAux_mono b occ occ2 _ _ hsub _ _ _ h

lemma piecesAttack_mono (b : Board) (a c : PiecePlacement) (occ occ2 : Finset (Int × Int))
    (hsub : occ ⊆ occ2) (h : piecesAttack b a c occ2 = true) :
    piecesAttack b a c occ = true := by
  obtain ⟨ar, ac, ty⟩ := a
  cases ty <;> simp only [piecesAttack] at h ⊢
  case knight => exact h
  case king => exact h
  case pawn => exact h
  all_goals
    split_ifs at h ⊢ with hg
    exact pathClear_mono b _ _ occ occ2 hsub h

lemma conflictB_false_mono (b : Board) (p q : PiecePlacement) (occ occ2 : Finset (Int × Int))
    (hsub : occ ⊆ occ2) (h : conflictB b occ p q = false) : conflictB b occ2 p q = false := by
  unfold conflictB at h ⊢
  rw [Bool.or_eq_false_iff] at h ⊢
  constructor
  · cases h1 : piecesAttack b p q occ2
    · rfl
    · exact absurd (piecesAttack_mono b p q occ occ2 hsub h1) (by simp [h.1])
  · cases h2 : piecesAttack b q p occ2
    · rfl
    · exact absurd (piecesAttack_mono b q p occ occ2 hsub h2) (by simp [h.2])

lemma pairPos_empty_iff (p : PiecePlacement) (hits : List PiecePlacement) :
    pairPos p hits = ∅ ↔ hits = [] := by
  cases hits with
  | nil => simp [pairPos]
  | cons q rest =>
    simp only [pairPos, List.foldr]
    exact ⟨fun h => absurd h (Finset.insert_ne_empty _ _), fun h => by cases h⟩

lemma pairsAux_pos_empty_iff (b : Board) (occ : Finset (Int × Int)) :
    ∀ l : List PiecePlacement, (pairsAux b occ l).1 = ∅ ↔
      l.Pairwise (fun p q => conflictB b occ p q = false) := by
  intro l
  induction l with
  | nil => simp [pairsAux]
  | cons p rest ih =>
    rw [pairsAux_cons]
    simp only [Finset.union_eq_empty, pairPos_empty_iff, List.filter_eq_nil_iff,
      List.pairwise_cons, ih]
    constructor
    · rintro ⟨h1, h2⟩
      exact ⟨fun q hq => by simpa using h1 q hq, h2⟩
    · rintro ⟨h1, h2⟩
      exact ⟨fun q hq => by simpa using h1 q hq, h2⟩

lemma pairsAux_cnt_zero (b : Board) (occ : Finset (Int × Int)) :
    ∀ l : List PiecePlacement,
      l.Pairwise (fun p q => conflictB b occ p q = false) →
      (pairsAux b occ l).2 = 0 := by
  intro l
  induction l with
  | nil => intro _; rfl
  | cons p rest ih =>
    intro h
    rw [List.pairwise_cons] at h
    rw [pairsAux_cons]
    simp only []
    have hf : rest.filter (fun q => conflictB b occ p q) = [] := by
      rw [List.filter_eq_nil_iff]
      intro q hq
      simp [h.1 q hq]
    rw [hf, ih h.2]
    rfl

lemma keysOf_append_single (l : List PiecePlacement) (c : PiecePlacement) :
    keysOf (l ++ [c]) = insert (c.row, c.col) (keysOf l) := by
  unfold keysOf
  rw [List.map_append, List.toFinset_append]
  ext a
  simp [or_comm]

theorem backtrack_sound (b : Board) (cells : List (Int × Int)) :
    ∀ (pieces : List PieceType) (placed : List PiecePlacement) (occ : Finset (Int × Int))
      (l : List PiecePlacement),
      occ = keysOf placed →
      placed.Pairwise (fun p q => conflictB b occ p q = false) →
      backtrack b cells pieces placed occ = some l →
      l.Pairwise (fun p q => conflictB b (keysOf l) p q = false) := by
  intro pieces
  induction pieces with
  | nil =>
    intro placed occ l hocc hpw hbt
    unfold backtrack at hbt
    cases hbt
    rw [← hocc]
    exact hpw
  | cons t rest ih =>
    intro placed occ l hocc hpw hbt
    unfold backtrack at hbt
    rw [List.findSome?_eq_some_iff] at hbt
    obtain ⟨l1, cell, l2, _, hf, _⟩ := hbt
    by_cases h1 : cell ∈ occ
    · simp [h1] at hf
    · by_cases h2 : (placed.any fun p =>
          piecesAttack b ⟨cell.1, cell.2, t⟩ p occ ||
            piecesAttack b p ⟨cell.1, cell.2, t⟩ occ) = true
      · simp [h1, h2] at hf
      · have h2l := h2
        rw [Bool.not_eq_true, List.any_eq_false] at h2l
        rw [if_neg h1, if_neg h2] at hf
        refine ih (placed ++ [⟨cell.1, cell.2, t⟩]) (insert cell occ) l ?_ ?_ hf
        · rw [keysOf_append_single, ← hocc]
        · rw [List.pairwise_append]
          refine ⟨?_, List.pairwise_singleton _ _, ?_⟩
          · exact hpw.imp fun hpq =>
              conflictB_false_mono b _ _ occ (insert cell occ)
                (Finset.subset_insert _ _) hpq
          · intro p hp q hq
            rw [List.mem_singleton] at hq
            subst hq
            have hthis := h2l p hp
            rw [Bool.not_eq_true, Bool.or_eq_false_iff] at hthis
            refine conflictB_false_mono b _ _ occ (insert cell occ)
              (Finset.subset_insert _ _) ?_
            unfold conflictB
            rw [Bool.or_eq_false_iff]
            exact ⟨hthis.2, hthis.1⟩

/-- C3: solver soundness — whenever `solveWithInventory` returns a
placement list, `evaluateConflicts` on that list (same board) reports an
empty offending-position set and a pair count of zero. Every piece the
search adds is tested in both directions against all previously placed
pieces under the then-current occupied set, and since enlarging the
occupied set can only block sight lines, those checks remain conflict-free
under the final occupied set. -/
theorem claim_C3 (b : Board) (inv : Inventory) (pre : List PiecePlacement)
    (l : List PiecePlacement) (h : solveWithInventory b inv pre = some l) :
    (evaluateConflicts b l).positions = ∅ ∧ (evaluateConflicts b l).pairCount = 0 := by
  unfold solveWithInventory at h
  cases hl : loadPre b inv pre Inventory.zero with
  | none => rw [hl] at h; cases h
  | some used =>
    rw [hl] at h
    by_cases hleg : isLegalPlacement b pre = true
    · simp only [hleg, if_true, ite_true] at h
      have hpw : pre.Pairwise (fun p q => conflictB b (keysOf pre) p q = false) := by
        unfold isLegalPlacement at hleg
        have hcard : (evaluateConflicts b pre).positions.card = 0 :=
          of_decide_eq_true hleg
        rw [Finset.card_eq_zero, evaluateConflicts_eq] at hcard
        exact (pairsAux_pos_empty_iff b (keysOf pre) pre).mp hcard
      have hfin := backtrack_sound b (validCells b) _ pre (keysOf pre) l rfl hpw h
      rw [evaluateConflicts_eq]
      exact ⟨(pairsAux_pos_empty_iff b (keysOf l) l).mpr hfin,
        pairsAux_cnt_zero b (keysOf l) l hfin⟩
    · simp only [Bool.not_eq_true] at hleg
      simp [hleg] at h

/-- C3 witness: the theorem applied to the all-valid 2×2 board with a
two-rook inventory; the solver returns rooks at (0,0) and (1,1). -/
theorem claim_C3_witness :
    solveWithInventory boardTwo invRook2 [] = some [rookA, rookB] ∧
    ((evaluateConflicts boardTwo [rookA, rookB]).positions = ∅ ∧
      (evaluateConflicts boardTwo [rookA, rookB]).pairCount = 0) :=
  ⟨by decide, claim_C3 boardTwo invRook2 [] [rookA, rookB] (by decide)⟩
lemma conflictB_symm (b : Board) (occ : Finset (Int × Int)) (p q : PiecePlacement) :
    conflictB b occ p q = conflictB b occ q p := by
  unfold conflictB
  exact Bool.or_comm _ _

lemma keysOf_perm {l l2 : List PiecePlacement} (h : l.Perm l2) : keysOf l = keysOf l2 :=
  List.toFinset_eq_of_perm _ _ (h.map _)

lemma mem_pairPos (a : Int × Int) (p : PiecePlacement) (hits : List PiecePlacement) :
    a ∈ pairPos p hits ↔
      ∃ q ∈ hits, a = (p.row, p.col) ∨ a = (q.row, q.col) := by
  induction hits with
  | nil => simp [pairPos]
  | cons q rest ih =>
    simp only [pairPos, List.foldr] at ih ⊢
    rw [Finset.mem_insert, Finset.mem_insert, ih]
    simp only [List.mem_cons]
    constructor
    · rintro (h | h | ⟨w, hw, hs⟩)
      · exact ⟨q, Or.inl rfl, Or.inl h⟩
      · exact ⟨q, Or.inl rfl, Or.inr h⟩
      · exact ⟨w, Or.inr hw, hs⟩
    · rintro ⟨w, (rfl | hw), (hs | hs)⟩
      · exact Or.inl hs
      · exact Or.inr (Or.inl hs)
      · exact Or.inl hs
      · exact Or.inr (Or.inr ⟨w, hw, Or.inr hs⟩)

lemma mem_pairsAux_cons (b : Board) (occ : Finset (Int × Int)) (a : Int × Int)
    (p : PiecePlacement) (rest : List PiecePlacement) :
    a ∈ (pairsAux b occ (p :: rest)).1 ↔
      ((∃ q ∈ rest, conflictB b occ p q = true ∧
          (a = (p.row, p.col) ∨ a = (q.row, q.col))) ∨
        a ∈ (pairsAux b occ rest).1) := by
  rw [pairsAux_cons]
  simp only [Finset.mem_union, mem_pairPos, List.mem_filter]
  constructor
  · rintro (⟨q, ⟨hq, hc⟩, hs⟩ | h)
    · exact Or.inl ⟨q, hq, hc, hs⟩
    · exact Or.inr h
  · rintro (⟨q, hq, hc, hs⟩ | h)
    · exact Or.inl ⟨q, ⟨hq, hc⟩, hs⟩
    · exact Or.inr h

lemma pairsAux_perm (b : Board) (occ : Finset (Int × Int)) :
    ∀ {l l2 : List PiecePlacement}, l.Perm l2 →
      pairsAux b occ l = pairsAux b occ l2 := by
  intro l l2 h
  induction h with
  | nil => rfl
  | cons x h ih =>
    have ihpos := congrArg Prod.fst ih
    have ihcnt := congrArg Prod.snd ih
    simp only [] at ihpos ihcnt
    refine Prod.ext ?_ ?_
    · ext a
      rw [mem_pairsAux_cons, mem_pairsAux_cons, ihpos]
      constructor
      · rintro (⟨q, hq, hrest⟩ | hh)
        · exact Or.inl ⟨q, h.mem_iff.mp hq, hrest⟩
        · exact Or.inr hh
      · rintro (⟨q, hq, hrest⟩ | hh)
        · exact Or.inl ⟨q, h.mem_iff.mpr hq, hrest⟩
        · exact Or.inr hh
    · rw [pairsAux_cons, pairsAux_cons]
      simp only [← List.countP_eq_length_filter, ihcnt, h.countP_eq]
  | swap x y l =>
    refine Prod.ext ?_ ?_
    · ext a
      rw [mem_pairsAux_cons, mem_pairsAux_cons, mem_pairsAux_cons, mem_pairsAux_cons]
      simp only [List.mem_cons]
      constructor
      · rintro (⟨q, (rfl | hq), hc, hs⟩ | (⟨q, hq, hc, hs⟩ | hh))
        · exact Or.inl ⟨y, Or.inl rfl, by rwa [conflictB_symm], hs.symm⟩
        · exact Or.inr (Or.inl ⟨q, hq, hc, hs⟩)
        · exact Or.inl ⟨q, Or.inr hq, hc, hs⟩
        · exact Or.inr (Or.inr hh)
      · rintro (⟨q, (rfl | hq), hc, hs⟩ | (⟨q, hq, hc, hs⟩ | hh))
        · exact Or.inl ⟨x, Or.inl rfl, by rwa [conflictB_symm], hs.symm⟩
        · exact Or.inr (Or.inl ⟨q, hq, hc, hs⟩)
        · exact Or.inl ⟨q, Or.inr hq, hc, hs⟩
        · exact Or.inr (Or.inr hh)
    · rw [pairsAux_cons, pairsAux_cons, pairsAux_cons, pairsAux_cons]
      simp only [← List.countP_eq_length_filter, List.countP_cons]
      rw [conflictB_symm b occ y x]
      omega
  | trans h1 h2 ih1 ih2 => exact ih1.trans ih2

lemma evaluateConflicts_perm (b : Board) {l l2 : List PiecePlacement} (h : l.Perm l2) :
    evaluateConflicts b l = evaluateConflicts b l2 := by
  rw [evaluateConflicts_eq, evaluateConflicts_eq, keysOf_perm h,
    pairsAux_perm b (keysOf l2) h]

/-- C7: the conflict evaluator reports a two-element placement list as
conflicting exactly when the attack relation holds in at least one of the
two directions under the attack model (with the two occupied squares as
sight blockers), and its full result — offending-position set and pair
count — is invariant under any permutation of the placement list. -/
theorem claim_C7 (b : Board) :
    (∀ p q : PiecePlacement,
      ((evaluateConflicts b [p, q]).pairCount ≠ 0 ↔
        (piecesAttack b p q (keysOf [p, q]) = true ∨
          piecesAttack b q p (keysOf [p, q]) = true))) ∧
    (∀ l l2 : List PiecePlacement, l.Perm l2 →
      evaluateConflicts b l = evaluateConflicts b l2) := by
  constructor
  · intro p q
    rw [evaluateConflicts_pair_count]
    unfold conflictB
    cases h1 : piecesAttack b p q (keysOf [p, q]) <;>
      cases h2 : piecesAttack b q p (keysOf [p, q]) <;> simp
  · intro l l2 h
    exact evaluateConflicts_perm b h

/-- C7 witness: the pair test and the permutation invariance evaluated on
the two-rook configuration of the 2×2 board. -/
theorem claim_C7_witness :
    ((evaluateConflicts boardTwo [rookA, rookB]).pairCount ≠ 0 ↔
      (piecesAttack boardTwo rookA rookB (keysOf [rookA, rookB]) = true ∨
        piecesAttack boardTwo rookB rookA (keysOf [rookA, rookB]) = true)) ∧
    evaluateConflicts boardTwo [rookA, rookB] = evaluateConflicts boardTwo [rookB, rookA] :=
  ⟨(claim_C7 boardTwo).1 rookA rookB,
    (claim_C7 boardTwo).2 [rookA, rookB] [rookB, rookA] (List.Perm.swap rookB rookA [])⟩
lemma findAux_found (base : List Nat) (inv : Inventory) :
    ∀ (fuel attempt k : Nat) (sol : List PiecePlacement),
      attempt ≤ k → k < attempt + fuel →
      solveWithInventory (generateBoard (attemptSeed base k) 8) inv [] = some sol →
      (∀ j, attempt ≤ j → j < k →
        solveWithInventory (generateBoard (attemptSeed base j) 8) inv [] = none) →
      findAux base inv attempt fuel =
        (generateBoard (attemptSeed base k) 8, some sol) := by
  intro fuel
  induction fuel with
  | zero => intro attempt k sol h1 h2 _ _; omega
  | succ n ih =>
    intro attempt k sol h1 h2 hsol hnone
    cases hcur : solveWithInventory (generateBoard (attemptSeed base attempt) 8) inv [] with
    | some s =>
      have hk : k = attempt := by
        by_contra hne
        have hlt : attempt < k := by omega
        rw [hnone attempt (le_refl _) hlt] at hcur
        cases hcur
      subst hk
      rw [hcur] at hsol
      simp only [findAux, hcur]
      cases hsol
      rfl
    | none =>
      have hk : attempt < k := by
        by_contra hne
        have hke : k = attempt := by omega
        rw [hke] at hsol
        rw [hsol] at hcur
        cases hcur
      simp only [findAux, hcur]
      exact ih (attempt + 1) k sol (by omega) (by omega) hsol
        (fun j hj1 hj2 => hnone j (by omega) hj2)

lemma findAux_exhaust (base : List Nat) (inv : Inventory) :
    ∀ (fuel attempt : Nat),
      (∀ j, attempt ≤ j → j < attempt + fuel →
        solveWithInventory (generateBoard (attemptSeed base j) 8) inv [] = none) →
      findAux base inv attempt fuel = (generateBoard base 8, none) := by
  intro fuel
  induction fuel with
  | zero => intro attempt _; rfl
  | succ n ih =>
    intro attempt h
    have hcur := h attempt (le_refl _) (by omega)
    simp only [findAux, hcur]
    exact ih (attempt + 1) (fun j hj1 hj2 => h j (by omega) (by omega))

/-- C6: `findSolvableBoard` returns the board and solution of the first
attempt `k` (attempt 0 using the base seed, attempt `k ≥ 1` using the seed
`base-k`) whose generated board the solver can fill with the full inventory
and no preplaced pieces; if no attempt in `0..maxAttempts-1` succeeds, it
returns the base-seed board (regenerated) paired with `null`. -/
theorem claim_C6 (base : List Nat) (inv : Inventory) (m : Nat) :
    (∀ (k : Nat) (sol : List PiecePlacement), k < m →
      solveWithInventory (generateBoard (attemptSeed base k) 8) inv [] = some sol →
      (∀ j, j < k →
        solveWithInventory (generateBoard (attemptSeed base j) 8) inv [] = none) →
      findSolvableBoard base inv m = (generateBoard (attemptSeed base k) 8, some sol)) ∧
    ((∀ j, j < m →
        solveWithInventory (generateBoard (attemptSeed base j) 8) inv [] = none) →
      findSolvableBoard base inv m = (generateBoard base 8, none)) := by
  constructor
  · intro k sol hk hsol hnone
    exact findAux_found base inv m 0 k sol (Nat.zero_le _) (by omega) hsol
      (fun j _ hj => hnone j hj)
  · intro hall
    exact findAux_exhaust base inv m 0 (fun j _ hj => hall j (by omega))

/-- C6 witness: with the seed `"x"` and a one-king inventory, attempt 0
already succeeds (king at the first valid cell (0,1)); with an empty
attempt budget the fallback returns the base board and `null`. -/
theorem claim_C6_witness :
    findSolvableBoard [120] invKing1 1 =
      (generateBoard (attemptSeed [120] 0) 8, some [⟨0, 1, PieceType.king⟩]) ∧
    findSolvableBoard [121] invKing1 0 = (generateBoard [121] 8, none) :=
  ⟨(claim_C6 [120] invKing1 1).1 0 [⟨0, 1, PieceType.king⟩] (by omega) (by decide)
      (fun j hj => absurd hj (by omega)),
    (claim_C6 [121] invKing1 0).2 (fun j hj => absurd hj (by omega))⟩

lemma int_sign_cases (z : Int) : z.sign = -1 ∨ z.sign = 0 ∨ z.sign = 1 := by
  rcases z with (_ | n) | n
  · exact Or.inr (Or.inl rfl)
  · exact Or.inr (Or.inr rfl)
  · exact Or.inl rfl

lemma pathClearAux_eq_all (b : Board) (occ : Finset (Int × Int)) (dr dc : Int) :
    ∀ (fuel : Nat) (r c : Int),
      pathClearAux b occ dr dc fuel r c =
        (pathCellsAux dr dc fuel r c).all
          (fun cell => decide (cellAt b cell.1 cell.2 ≠ CellState.blocked) &&
            decide (cell ∉ occ)) := by
  intro fuel
  induction fuel with
  | zero => intro r c; rfl
  | succ n ih =>
    intro r c
    unfold pathClearAux pathCellsAux
    by_cases hb : cellAt b r c = CellState.blocked
    · simp [hb]
    · by_cases hocc : (r, c) ∈ occ
      · simp [hb, hocc]
      · simp [hb, hocc, ih]

lemma mem_pathCellsAux (dr dc : Int) :
    ∀ (fuel : Nat) (r c : Int) (cell : Int × Int),
      cell ∈ pathCellsAux dr dc fuel r c ↔
        ∃ i : Nat, i < fuel ∧ cell = (r + i * dr, c + i * dc) := by
  intro fuel
  induction fuel with
  | zero => intro r c cell; simp [pathCellsAux]
  | succ n ih =>
    intro r c cell
    unfold pathCellsAux
    rw [List.mem_cons, ih]
    constructor
    · rintro (rfl | ⟨i, hi, rfl⟩)
      · exact ⟨0, by omega, by simp⟩
      · refine ⟨i + 1, by omega, ?_⟩
        have h1 : r + dr + i * dr = r + (i + 1 : Nat) * dr := by push_cast; ring
        have h2 : c + dc + i * dc = c + (i + 1 : Nat) * dc := by push_cast; ring
        rw [h1, h2]
    · rintro ⟨i, hi, rfl⟩
      cases i with
      | zero => exact Or.inl (by simp)
      | succ j =>
        refine Or.inr ⟨j, by omega, ?_⟩
        have h1 : r + dr + j * dr = r + (j + 1 : Nat) * dr := by push_cast; ring
        have h2 : c + dc + j * dc = c + (j + 1 : Nat) * dc := by push_cast; ring
        rw [h1, h2]

lemma cheb_mul_sign_row (p q : PiecePlacement) (h : onLine p q) :
    (cheb p q : Int) * (q.row - p.row).sign = q.row - p.row := by
  by_cases h0 : q.row - p.row = 0
  · rw [h0]; simp
  · have hc : cheb p q = (q.row - p.row).natAbs := by
      rcases h with h | h | h
      · exact absurd h h0
      · unfold cheb; rw [h]; simp
      · unfold cheb; rw [h]; simp
    rw [hc, mul_comm]
    exact Int.sign_mul_natAbs _

lemma cheb_mul_sign_col (p q : PiecePlacement) (h : onLine p q) :
    (cheb p q : Int) * (q.col - p.col).sign = q.col - p.col := by
  by_cases h0 : q.col - p.col = 0
  · rw [h0]; simp
  · have hc : cheb p q = (q.col - p.col).natAbs := by
      rcases h with h | h | h
      · unfold cheb; rw [h]; simp
      · exact absurd h h0
      · unfold cheb; rw [h]; simp
    rw [hc, mul_comm]
    exact Int.sign_mul_natAbs _

/-- C10: on any board, for any two in-bounds placements that share a row,
column or diagonal (`onLine` — exactly the guards under which
`piecesAttack` enters `pathClear` for rook, bishop and queen), the
`pathClear` walk is the conjunction of per-cell checks over the `pathCells`
list, that walk reaches the target square after `cheb` unit steps (so the
`while` loop of the source terminates), and every visited intermediate
cell lies strictly inside the board bounds — no out-of-grid cell is ever
read. Since `evaluateConflicts` only applies `piecesAttack` to placements
of its list, in-bounds placement lists never index outside the grid. -/
theorem claim_C10 (b : Board) (p q : PiecePlacement)
    (hp : inBounds b p) (hq : inBounds b q) (hline : onLine p q) :
    (p.row + (cheb p q : Int) * (q.row - p.row).sign = q.row ∧
     p.col + (cheb p q : Int) * (q.col - p.col).sign = q.col) ∧
    (∀ cell ∈ pathCells p q,
      0 ≤ cell.1 ∧ cell.1 < (b.height : Int) ∧
      0 ≤ cell.2 ∧ cell.2 < (b.width : Int)) ∧
    (∀ occ : Finset (Int × Int),
      pathClear b p q occ =
        (pathCells p q).all
          (fun cell => decide (cellAt b cell.1 cell.2 ≠ CellState.blocked) &&
            decide (cell ∉ occ))) := by
  have hrow := cheb_mul_sign_row p q hline
  have hcol := cheb_mul_sign_col p q hline
  obtain ⟨hp1, hp2, hp3, hp4⟩ := hp
  obtain ⟨hq1, hq2, hq3, hq4⟩ := hq
  refine ⟨⟨by omega, by omega⟩, ?_, ?_⟩
  · intro cell hcell
    unfold pathCells at hcell
    rw [mem_pathCellsAux] at hcell
    obtain ⟨i, hi, rfl⟩ := hcell
    have hir : p.row + (q.row - p.row).sign + i * (q.row - p.row).sign =
        p.row + ((i : Int) + 1) * (q.row - p.row).sign := by ring
    have hic : p.col + (q.col - p.col).sign + i * (q.col - p.col).sign =
        p.col + ((i : Int) + 1) * (q.col - p.col).sign := by ring
    rcases int_sign_cases (q.row - p.row) with hsr | hsr | hsr <;>
      rcases int_sign_cases (q.col - p.col) with hsc | hsc | hsc <;>
        (rw [hsr] at hrow; rw [hsc] at hcol; rw [hsr, hsc]; dsimp only) <;>
          exact ⟨by omega, by omega, by omega, by omega⟩
  · intro occ
    unfold pathClear pathCells
    exact pathClearAux_eq_all b occ _ _ _ _ _

/-- C10 witness: two in-bounds rooks on the same row of the 3×3 board. -/
theorem claim_C10_witness :
    (inBounds boardThree rookA ∧ inBounds boardThree ⟨0, 2, PieceType.rook⟩ ∧
      onLine rookA ⟨0, 2, PieceType.rook⟩) ∧
    ((rookA.row + (cheb rookA ⟨0, 2, PieceType.rook⟩ : Int) *
        ((⟨0, 2, PieceType.rook⟩ : PiecePlacement).row - rookA.row).sign =
          (⟨0, 2, PieceType.rook⟩ : PiecePlacement).row ∧
      rookA.col + (cheb rookA ⟨0, 2, PieceType.rook⟩ : Int) *
        ((⟨0, 2, PieceType.rook⟩ : PiecePlacement).col - rookA.col).sign =
          (⟨0, 2, PieceType.rook⟩ : PiecePlacement).col) ∧
    (∀ cell ∈ pathCells rookA ⟨0, 2, PieceType.rook⟩,
      0 ≤ cell.1 ∧ cell.1 < (boardThree.height : Int) ∧
      0 ≤ cell.2 ∧ cell.2 < (boardThree.width : Int)) ∧
    (∀ occ : Finset (Int × Int),
      pathClear boardThree rookA ⟨0, 2, PieceType.rook⟩ occ =
        (pathCells rookA ⟨0, 2, PieceType.rook⟩).all
          (fun cell => decide (cellAt boardThree cell.1 cell.2 ≠ CellState.blocked) &&
            decide (cell ∉ occ)))) :=
  ⟨⟨by decide, by decide, by decide⟩,
    claim_C10 boardThree rookA ⟨0, 2, PieceType.rook⟩ (by decide) (by decide) (by decide)⟩
lemma sh53Aux_zero_of_lt (f x : Nat) (h : x < 9007199254740992) : sh53Aux f x = 0 := by
  cases f with
  | zero => rfl
  | succ n => simp [sh53Aux, h]

lemma sh53Aux_lt (f : Nat) : ∀ x : Nat, x ≤ f → x / 2 ^ sh53Aux f x < 9007199254740992 := by
  induction f with
  | zero =>
    intro x hx
    have : x = 0 := by omega
    subst this
    simp [sh53Aux]
  | succ n ih =>
    intro x hx
    by_cases h : x < 9007199254740992
    · simp [sh53Aux, h]
    · have hx2 : x / 2 ≤ n := by omega
      have := ih (x / 2) hx2
      simp only [sh53Aux, h, if_false, ite_false]
      rw [pow_succ, mul_comm, ← Nat.div_div_eq_div_mul]
      exact this

lemma sh53Aux_ge (f : Nat) : ∀ x : Nat, x ≤ f → 9007199254740992 ≤ x →
    9007199254740992 * 2 ^ (sh53Aux f x - 1) ≤ x := by
  induction f with
  | zero => intro x hx hge; omega
  | succ n ih =>
    intro x hx hge
    have h : ¬(x < 9007199254740992) := by omega
    simp only [sh53Aux, h, if_false, ite_false]
    by_cases hz : sh53Aux n (x / 2) = 0
    · rw [hz]
      simpa using hge
    · have hge2 : 9007199254740992 ≤ x / 2 := by
        by_contra hlt
        exact hz (sh53Aux_zero_of_lt n (x / 2) (by omega))
      have hx2 : x / 2 ≤ n := by omega
      have hih := ih (x / 2) hx2 hge2
      have hsucc : sh53Aux n (x / 2) + 1 - 1 = (sh53Aux n (x / 2) - 1) + 1 := by omega
      rw [hsucc, pow_succ]
      have : 9007199254740992 * 2 ^ (sh53Aux n (x / 2) - 1) * 2 ≤ x / 2 * 2 := by
        omega
      have h2 : x / 2 * 2 ≤ x := by omega
      omega

lemma rnd53_bounds (x : Nat) :
    x ≤ rnd53 x + x / 9007199254740992 ∧ rnd53 x ≤ x + x / 9007199254740992 := by
  unfold rnd53
  by_cases h1 : x < 9007199254740992
  · simp only [h1, if_true, ite_true]
    omega
  · simp only [h1, if_false, ite_false]
    have hlt : x / 2 ^ sh53 x < 9007199254740992 := sh53Aux_lt x x (le_refl x)
    have hge : 9007199254740992 * 2 ^ (sh53 x - 1) ≤ x :=
      sh53Aux_ge x x (le_refl x) (by omega)
    have hsh1 : 1 ≤ sh53 x := by
      by_contra hz
      have : sh53 x = 0 := by omega
      rw [this] at hlt
      simp at hlt
      omega
    have hhd : 2 ^ (sh53 x - 1) ≤ x / 9007199254740992 :=
      (Nat.le_div_iff_mul_le (by norm_num)).mpr (by omega)
    have he : 2 ^ sh53 x = 2 * 2 ^ (sh53 x - 1) := by
      conv_lhs => rw [show sh53 x = (sh53 x - 1) + 1 by omega]
      rw [pow_succ]
      ring
    have hqr : x / 2 ^ sh53 x * 2 ^ sh53 x + x % 2 ^ sh53 x = x := Nat.div_add_mod' x _
    have hr : x % 2 ^ sh53 x < 2 ^ sh53 x := Nat.mod_lt _ (Nat.pos_pow_of_pos _ (by norm_num))
    split_ifs with h2
    · have hrge : 2 ^ (sh53 x - 1) ≤ x % 2 ^ sh53 x := by
        rcases h2 with h2 | h2
        · omega
        · omega
      rw [add_mul, one_mul]
      constructor <;> omega
    · push_neg at h2
      have hrle : x % 2 ^ sh53 x ≤ 2 ^ (sh53 x - 1) := h2.1
      constructor <;> omega

lemma minValidFor_ge (t : Nat) (ht : t ≤ 1125899906842624) :
    (9 * t + 19) / 20 ≤ minValidFor t := by
  have hb := rnd53_bounds (8106479329266893 * t)
  unfold minValidFor
  omega

lemma countRow_split (row : List CellState) :
    countValidRow row + countBlockedRow row = row.length := by
  induction row with
  | nil => rfl
  | cons c rest ih =>
    unfold countValidRow countBlockedRow at ih ⊢
    rw [List.countP_cons, List.countP_cons]
    cases c <;> simp <;> omega

lemma genRow_stats (n : Nat) : ∀ s : Nat,
    countValidRow (genRow s n).1 + countBlockedRow (genRow s n).1 = n := by
  induction n with
  | zero => intro s; rfl
  | succ m ih =>
    intro s
    simp only [genRow]
    unfold countValidRow countBlockedRow at ih ⊢
    rw [List.countP_cons, List.countP_cons]
    have := ih (mulberry32 s).1
    cases drawCell (mulberry32 s).2 <;> simp <;> omega

lemma genCells_stats (m : Nat) (size : Nat) : ∀ s : Nat,
    countValid (genCells s size m).1 + countBlocked (genCells s size m).1 = size * m := by
  induction m with
  | zero => intro s; rfl
  | succ k ih =>
    intro s
    simp only [genCells]
    unfold countValid countBlocked at ih ⊢
    simp only [List.map_cons, List.sum_cons]
    have h1 := genRow_stats size s
    have h2 := ih (genRow s size).2
    have h3 : size * (k + 1) = size * k + size := by ring
    omega

lemma flipRow_fst (row : List CellState) : ∀ need : Nat,
    (flipRow need row).1 = need - countBlockedRow row := by
  induction row with
  | nil =>
    intro need
    cases need <;> simp [flipRow, countBlockedRow]
  | cons c rest ih =>
    intro need
    cases need with
    | zero => simp [flipRow, countBlockedRow]
    | succ k =>
      unfold countBlockedRow at ih ⊢
      rw [List.countP_cons]
      cases c <;> simp [flipRow, ih]

lemma flipRow_count (row : List CellState) : ∀ need : Nat,
    countValidRow (flipRow need row).2 =
      countValidRow row + min need (countBlockedRow row) := by
  induction row with
  | nil =>
    intro need
    cases need <;> simp [flipRow, countValidRow, countBlockedRow]
  | cons c rest ih =>
    intro need
    cases need with
    | zero => simp [flipRow, countBlockedRow]
    | succ k =>
      unfold countValidRow countBlockedRow at ih ⊢
      rw [List.countP_cons, List.countP_cons]
      cases c <;> simp [flipRow, List.countP_cons, ih] <;> omega

lemma flipCells_count (cells : List (List CellState)) : ∀ need : Nat,
    countValid (flipCells need cells) = countValid cells + min need (countBlocked cells) := by
  induction cells with
  | nil => intro need; simp [flipCells, countValid, countBlocked]
  | cons row rest ih =>
    intro need
    unfold countValid countBlocked at ih ⊢
    simp only [flipCells, List.map_cons, List.sum_cons]
    rw [flipRow_count row need, flipRow_fst row need, ih]
    have := countRow_split row
    omega

/-- C5: the validity floor. For every seed and every size up to `2^25`
(the range in which the JS double arithmetic `size*size` is exact; real
boards are 8×8), the generated board has at least
`ceil(size*size*0.45) = (9*size*size + 19) / 20` valid cells: the repair
pass flips the row-major-earliest blocked cells to valid until the
double-computed floor (which is at least the exact ceiling) is reached. -/
theorem claim_C5 (seed : List Nat) (n : Nat) (hn : n ≤ 33554432) :
    (9 * (n * n) + 19) / 20 ≤ countValid (generateBoard seed n).cells := by
  have ht : n * n ≤ 1125899906842624 := by
    calc n * n ≤ 33554432 * 33554432 := Nat.mul_le_mul hn hn
    _ = 1125899906842624 := by norm_num
  have hmv := minValidFor_ge (n * n) ht
  have hstats := genCells_stats n n (hashSeed seed)
  unfold generateBoard
  by_cases hrep :
      countValid (genCells (hashSeed seed) n n).1 < minValidFor (n * n)
  · simp only [hrep, if_true, ite_true]
    rw [flipCells_count]
    omega
  · simp only [hrep, if_false, ite_false]
    omega

/-- C5 witness: seed `"a"`, size 2 — the floor `ceil(4*0.45) = 2` is met
(the generated 2×2 grid has 3 valid cells). -/
theorem claim_C5_witness :
    2 ≤ 33554432 ∧ (9 * (2 * 2) + 19) / 20 ≤ countValid (generateBoard [97] 2).cells :=
  ⟨by omega, claim_C5 [97] 2 (by omega)⟩
